import Mathlib

/-!
# Verification of the primary-key slice-SQL generator

This file embeds the core of `slice_sql.py` (boundary sampling arithmetic,
single-column slicing, and the lexicographic composite-key decomposition)
into Lean, and proves the specified properties about it.

Predicates are modelled as lists of atomic comparisons (`Atom`): the Python
code builds the very same data inside f-strings (`"{col} >= {literal}"`),
which the renderer `renderWhere` reproduces verbatim, so the string output
of the Python functions is `renderWhere` mapped over the structured output.
Key values are a type parameter `α` for the semantic theorems (the Python
functions are polymorphic in the comparable value type), and the concrete
`Value` type (string / int / date / datetime / null, mirroring the dynamic
types handled by `fmt_literal`) for the string-level theorems.
-/

namespace SliceSql

/-- One atomic SQL comparison `col op literal`, as assembled by the f-strings
in `slice_sql.py`. -/
inductive Atom (α : Type) where
  | eq (col : String) (v : α)
  | lt (col : String) (v : α)
  | le (col : String) (v : α)
  | gt (col : String) (v : α)
  | ge (col : String) (v : α)
deriving DecidableEq

/-- The column name an atom constrains. -/
def Atom.col {α : Type} : Atom α → String
  | .eq c _ => c
  | .lt c _ => c
  | .le c _ => c
  | .gt c _ => c
  | .ge c _ => c

/-- The literal value an atom compares against. -/
def Atom.val {α : Type} : Atom α → α
  | .eq _ v => v
  | .lt _ v => v
  | .le _ v => v
  | .gt _ v => v
  | .ge _ v => v

/-- Strict lexicographic order on equal-length tuples, as Python compares
tuples component-wise left to right. -/
def lexLtB {α : Type} [LinearOrder α] : List α → List α → Bool
  | _, [] => false
  | [], _ :: _ => true
  | x :: xs, y :: ys => decide (x < y) || (decide (x = y) && lexLtB xs ys)

/-- Reflexive lexicographic order on equal-length tuples. -/
def lexLeB {α : Type} [LinearOrder α] : List α → List α → Bool
  | [], _ => true
  | _ :: _, [] => false
  | x :: xs, y :: ys => decide (x < y) || (decide (x = y) && lexLeB xs ys)

/-- The value a key tuple `t` (aligned with column list `cols`) assigns to
column `c`: positional lookup by column name. -/
def lookupVal {α : Type} : List String → List α → String → Option α
  | c :: cs, v :: vs, c' => if c' = c then some v else lookupVal cs vs c'
  | _, _, _ => none

/-- Truth of one atomic comparison against the row whose key tuple is `t`. -/
def satAtom {α : Type} [LinearOrder α] (cols : List String) (t : List α) : Atom α → Bool
  | .eq c v => match lookupVal cols t c with | some x => decide (x = v) | none => false
  | .lt c v => match lookupVal cols t c with | some x => decide (x < v) | none => false
  | .le c v => match lookupVal cols t c with | some x => decide (x ≤ v) | none => false
  | .gt c v => match lookupVal cols t c with | some x => decide (v < x) | none => false
  | .ge c v => match lookupVal cols t c with | some x => decide (v ≤ x) | none => false

/-- Truth of a pure-AND segment (conjunction of atoms). -/
def satSeg {α : Type} [LinearOrder α] (cols : List String) (t : List α) (seg : List (Atom α)) : Bool :=
  seg.all (satAtom cols t)

/-- Truth of a list of predicates taken as a union (the row satisfies at
least one emitted predicate). -/
def satAny {α : Type} [LinearOrder α] (cols : List String) (t : List α) (ws : List (List (Atom α))) : Bool :=
  ws.any (satSeg cols t)

/-! ## Embedding of the source functions -/

/-- Embedding of `_ge_segments` from `slice_sql.py`: pure-AND segments whose union is
`cols >= bounds` in lexicographic order. -/
def _ge_segments {α : Type} : List String → List α → List (List (Atom α))
  | [c], b :: _ => [[Atom.ge c b]]
  | c :: c2 :: cs, b :: bs =>
      ((_ge_segments (c2 :: cs) bs).map fun sub => Atom.eq c b :: sub) ++ [[Atom.gt c b]]
  | _, _ => []

/-- Embedding of `_le_segments` from `slice_sql.py`: pure-AND segments whose union is
`cols <= bounds` (or `< bounds` when not inclusive) in lexicographic order. -/
def _le_segments {α : Type} : List String → List α → Bool → List (List (Atom α))
  | [c], b :: _, inclusive => if inclusive then [[Atom.le c b]] else [[Atom.lt c b]]
  | c :: c2 :: cs, b :: bs, inclusive =>
      [Atom.lt c b] :: ((_le_segments (c2 :: cs) bs inclusive).map fun sub => Atom.eq c b :: sub)
  | _, _, _ => []

/-- Embedding of `build_composite_slice_wheres` from `slice_sql.py`: pure-AND WHERE
segments covering `[left, right)` (`[left, right]` when `is_last`). -/
def build_composite_slice_wheres {α : Type} [DecidableEq α] :
    List String → List α → List α → Bool → List (List (Atom α))
  | [c], l :: _, r :: _, is_last =>
      if is_last then [[Atom.ge c l, Atom.le c r]] else [[Atom.ge c l, Atom.lt c r]]
  | c :: c2 :: cs, l :: ls, r :: rs, is_last =>
      if l = r then
        (build_composite_slice_wheres (c2 :: cs) ls rs is_last).map fun w => Atom.eq c l :: w
      else
        ((_ge_segments (c2 :: cs) ls).map fun seg => Atom.eq c l :: seg)
          ++ [[Atom.gt c l, Atom.lt c r]]
          ++ ((_le_segments (c2 :: cs) rs is_last).map fun seg => Atom.eq c r :: seg)
  | _, _, _, _ => []

/-- The body of the adjacent-deduplication loop at the top of
`make_single_pk_slices_from_bounds`: `prev` is the last element already kept
(`dedup[-1]`); an element equal to it is skipped, anything else is kept and
becomes the new `prev`. -/
def dedupAdjFrom {α : Type} [DecidableEq α] (prev : α) : List α → List α
  | [] => []
  | b :: rest => if b = prev then dedupAdjFrom prev rest else b :: dedupAdjFrom b rest

/-- The adjacent-deduplication loop at the top of
`make_single_pk_slices_from_bounds` (keeps the first element of each run of
equal values). -/
def dedupAdj {α : Type} [DecidableEq α] : List α → List α
  | [] => []
  | a :: rest => a :: dedupAdjFrom a rest

/-- Consecutive pairs `(lo, hi, isLast)` of an ordered boundary list, as the
indexed loops in `make_single_pk_slices_from_bounds` and `generate_slice_sql`
produce them (the flag is set on the final pair only). -/
def slicePairs {α : Type} : List α → List (α × α × Bool)
  | [lo, hi] => [(lo, hi, true)]
  | lo :: hi :: c :: rest => (lo, hi, false) :: slicePairs (hi :: c :: rest)
  | _ => []

/-- Duplication step `if len(dedup) == 1: dedup.append(dedup[0])` of
`make_single_pk_slices_from_bounds`: a lone boundary value is duplicated. -/
def dupSingle {α : Type} : List α → List α
  | [a] => [a, a]
  | l => l

/-- The loop body of `make_single_pk_slices_from_bounds`: the range segment
for one consecutive boundary pair, right-closed exactly for the last pair. -/
def singleRange {α : Type} (col : String) (p : α × α × Bool) : List (Atom α) :=
  if p.2.2 then [Atom.ge col p.1, Atom.le col p.2.1]
  else [Atom.ge col p.1, Atom.lt col p.2.1]

/-- Embedding of `make_single_pk_slices_from_bounds` from `slice_sql.py`, at the level of
structured predicates: dedup the boundary values, duplicate a lone value,
then emit one two-atom range segment per consecutive pair (closed on the
right for the last pair). -/
def make_single_pk_slices {α : Type} [DecidableEq α] (col : String) (bounds : List α) :
    List (List (Atom α)) :=
  (slicePairs (dupSingle (dedupAdj bounds))).map (singleRange col)

/-! ## Concrete values and string rendering -/

/-- The dynamic value types `fmt_literal` in `slice_sql.py` distinguishes. -/
inductive Value where
  | str (s : String)
  | datetime (y mo d h mi sec : Nat)
  | date (y mo d : Nat)
  | null
  | int (n : Int)
deriving DecidableEq

/-- Zero-padded two-digit decimal rendering (`%m`, `%d`, `%H`, `%M`, `%S`). -/
def pad2 (n : Nat) : String := if n < 10 then "0" ++ toString n else toString n

/-- Zero-padded four-digit decimal rendering (`%Y`). -/
def pad4 (n : Nat) : String :=
  if n < 10 then "000" ++ toString n
  else if n < 100 then "00" ++ toString n
  else if n < 1000 then "0" ++ toString n
  else toString n

/-- Embedding of `fmt_literal` from `slice_sql.py`: strings quoted with doubled embedded
quotes, midnight datetimes and dates as `DATE` literals, other datetimes as
`TIMESTAMP` literals, `None` as `NULL`, any other scalar via `str`. -/
def fmt_literal : Value → String
  | .str s => "'" ++ s.replace ("'") ("''") ++ "'"
  | .datetime y mo d h mi sec =>
      if h = 0 ∧ mi = 0 ∧ sec = 0 then
        "DATE '" ++ pad4 y ++ "-" ++ pad2 mo ++ "-" ++ pad2 d ++ "'"
      else
        "TIMESTAMP '" ++ pad4 y ++ "-" ++ pad2 mo ++ "-" ++ pad2 d ++ " "
          ++ pad2 h ++ ":" ++ pad2 mi ++ ":" ++ pad2 sec ++ "'"
  | .date y mo d => "DATE '" ++ pad4 y ++ "-" ++ pad2 mo ++ "-" ++ pad2 d ++ "'"
  | .null => "NULL"
  | .int n => toString n

/-- Rendering of one atom, exactly the f-strings of `slice_sql.py`. -/
def renderAtom : Atom Value → String
  | .eq c v => c ++ " = " ++ fmt_literal v
  | .lt c v => c ++ " < " ++ fmt_literal v
  | .le c v => c ++ " <= " ++ fmt_literal v
  | .gt c v => c ++ " > " ++ fmt_literal v
  | .ge c v => c ++ " >= " ++ fmt_literal v

/-- Embedding of `" AND ".join`, applied to rendered atoms. -/
def renderWhere : List (Atom Value) → String
  | [] => ""
  | [a] => renderAtom a
  | a :: b :: rest => renderAtom a ++ " AND " ++ renderWhere (b :: rest)

/-- Embedding of `make_single_pk_slices_from_bounds` from `slice_sql.py` at string level:
the rendered form of the structured slices. -/
def make_single_pk_slices_from_bounds (col : String) (bounds : List Value) : List String :=
  (make_single_pk_slices col bounds).map renderWhere

/-! ## Boundary sampling (pure part of `fetch_pk_boundaries`) -/

/-- Stride computation `step = max(1, math.ceil(total / k))` (line 100); real division plus
`math.ceil` is modelled as exact ceiling division. -/
def boundary_step (total k : Nat) : Nat := max 1 ((total + k - 1) / k)

/-- Target ranks `rns = sorted({1 + i*step for i in range(k)} | {total})` (lines 101-102);
the set union is modelled as append plus deduplication, then the list is
sorted ascending. -/
def target_rns (total k : Nat) : List Nat :=
  ((((List.range k).map fun i => 1 + i * boundary_step total k) ++ [total]).dedup).insertionSort
    (· ≤ ·)

/-- Pure core of `fetch_pk_boundaries`: the row-count query result is the
parameter `total`, and `rows` abstracts the ranked-sample query, returning
the key tuples found at the requested row ranks in rank order. When the
table is empty the function returns `[]` before any sampling. -/
def fetch_pk_boundaries (total k : Nat) (rows : List Nat → List (List Value)) :
    List (List Value) :=
  if total = 0 then [] else rows (target_rns total k)

/-- Embedding of `generate_slice_sql` after primary-key introspection (lines 274-297):
raises when the key column list is empty, otherwise fetches boundaries and
dispatches on key arity. The second component records whether the boundary
fetch was invoked, making the "fail before sampling" control flow explicit. -/
def generate_slice_sql (qualified : String) (pk_cols : List String)
    (fetch : Unit → List (List Value)) : Except String (List String) × Bool :=
  if pk_cols = [] then (Except.error ("Primary key not found"), false)
  else
    let boundaries := fetch ()
    if boundaries = [] then (Except.ok [], true)
    else
      match pk_cols with
      | [] => (Except.ok [], true)
      | [c] =>
          (Except.ok ((make_single_pk_slices_from_bounds c
              (boundaries.map fun b => b.headD Value.null)).map fun cond =>
                "SELECT * FROM " ++ qualified ++ " WHERE " ++ cond ++ ";"), true)
      | c1 :: c2 :: cs =>
          let stmts := ((slicePairs boundaries).map fun p =>
            (build_composite_slice_wheres (c1 :: c2 :: cs) p.1 p.2.1 p.2.2).map
              fun w => "SELECT * FROM " ++ qualified ++ " WHERE " ++ renderWhere w ++ ";").flatten
          (Except.ok stmts, true)

/-! ## Lexicographic order lemmas -/

section LexLemmas

variable {α : Type} [LinearOrder α]

theorem lexLtB_eq_not_lexLeB (a : List α) : ∀ b : List α, lexLtB a b = !lexLeB b a := by
  induction a with
  | nil => intro b; cases b <;> simp [lexLtB, lexLeB]
  | cons x xs ih =>
    intro b
    cases b with
    | nil => simp [lexLtB, lexLeB]
    | cons y ys =>
      simp only [lexLtB, lexLeB, ih ys]
      rcases lt_trichotomy x y with h | h | h
      · simp [h, ne_of_gt h, not_lt_of_lt h]
      · simp [h, lt_irrefl]
      · simp [h, ne_of_gt h, not_lt_of_lt h, ne_of_lt h]

theorem not_lexLt_of_lexLe {a b : List α} (h : lexLeB a b = true) : lexLtB b a = false := by
  rw [lexLtB_eq_not_lexLeB, h]; rfl

end LexLemmas

/-! ## Satisfaction lemmas -/

section SatLemmas

variable {α : Type} [LinearOrder α]

theorem satSeg_iff (cols : List String) (t : List α) (seg : List (Atom α)) :
    satSeg cols t seg = true ↔ ∀ a ∈ seg, satAtom cols t a = true :=
  List.all_eq_true

theorem satAny_iff (cols : List String) (t : List α) (ws : List (List (Atom α))) :
    satAny cols t ws = true ↔ ∃ s ∈ ws, satSeg cols t s = true :=
  List.any_eq_true

theorem satSeg_cons (cols : List String) (t : List α) (a : Atom α) (seg : List (Atom α)) :
    satSeg cols t (a :: seg) = (satAtom cols t a && satSeg cols t seg) :=
  List.all_cons

theorem satAny_append (cols : List String) (t : List α) (w1 w2 : List (List (Atom α))) :
    satAny cols t (w1 ++ w2) = (satAny cols t w1 || satAny cols t w2) :=
  List.any_append

theorem satAtom_cons_ne {c : String} {a : Atom α} (cols : List String) (v : α) (t : List α)
    (h : a.col ≠ c) : satAtom (c :: cols) (v :: t) a = satAtom cols t a := by
  cases a <;> simp [Atom.col] at h <;> simp [satAtom, lookupVal, h]

theorem satSeg_cons_ne {c : String} {seg : List (Atom α)} (cols : List String) (v : α)
    (t : List α) (h : ∀ a ∈ seg, a.col ≠ c) :
    satSeg (c :: cols) (v :: t) seg = satSeg cols t seg := by
  induction seg with
  | nil => rfl
  | cons a rest ih =>
    rw [satSeg_cons, satSeg_cons, satAtom_cons_ne cols v t (h a (by simp)),
      ih fun a ha => h a (by simp [ha])]

theorem satAny_map_cons (cols : List String) (t : List α) (a : Atom α)
    (ws : List (List (Atom α))) :
    satAny cols t (ws.map fun s => a :: s) = (satAtom cols t a && satAny cols t ws) := by
  induction ws with
  | nil => simp [satAny]
  | cons s rest ih =>
    simp only [List.map_cons, satAny, List.any_cons] at ih ⊢
    rw [satSeg_cons, ih]
    cases satAtom cols t a <;> simp

/-- The value of the leading column under `eq`/`gt` atoms on it. -/
theorem satAtom_eq_head (c : String) (cols : List String) (v b : α) (t : List α) :
    satAtom (c :: cols) (v :: t) (Atom.eq c b) = decide (v = b) := by
  simp [satAtom, lookupVal]

theorem satAtom_gt_head (c : String) (cols : List String) (v b : α) (t : List α) :
    satAtom (c :: cols) (v :: t) (Atom.gt c b) = decide (b < v) := by
  simp [satAtom, lookupVal]

theorem satAtom_ge_head (c : String) (cols : List String) (v b : α) (t : List α) :
    satAtom (c :: cols) (v :: t) (Atom.ge c b) = decide (b ≤ v) := by
  simp [satAtom, lookupVal]

theorem satAtom_lt_head (c : String) (cols : List String) (v b : α) (t : List α) :
    satAtom (c :: cols) (v :: t) (Atom.lt c b) = decide (v < b) := by
  simp [satAtom, lookupVal]

theorem satAtom_le_head (c : String) (cols : List String) (v b : α) (t : List α) :
    satAtom (c :: cols) (v :: t) (Atom.le c b) = decide (v ≤ b) := by
  simp [satAtom, lookupVal]

end SatLemmas

/-! ## Atoms mentioned by emitted segments -/

section AtomMem

variable {α : Type}

theorem ge_segments_atom_mem (cols : List String) :
    ∀ (bounds : List α), ∀ seg ∈ _ge_segments cols bounds, ∀ a ∈ seg,
      a.col ∈ cols ∧ a.val ∈ bounds := by
  induction cols with
  | nil => intro bounds seg hseg; simp [_ge_segments] at hseg
  | cons c rest ih =>
    intro bounds seg hseg a ha
    match rest, bounds with
    | _, [] => simp [_ge_segments] at hseg
    | [], b :: bs =>
      simp only [_ge_segments, List.mem_singleton] at hseg
      subst hseg
      simp only [List.mem_singleton] at ha
      subst ha
      simp [Atom.col, Atom.val]
    | c2 :: cs, b :: bs =>
      simp only [_ge_segments, List.mem_append, List.mem_map, List.mem_singleton] at hseg
      rcases hseg with ⟨sub, hsub, rfl⟩ | rfl
      · rcases List.mem_cons.1 ha with rfl | ha'
        · simp [Atom.col, Atom.val]
        · have := ih bs sub hsub a ha'
          exact ⟨List.mem_cons_of_mem _ this.1, List.mem_cons_of_mem _ this.2⟩
      · simp only [List.mem_singleton] at ha
        subst ha
        simp [Atom.col, Atom.val]

theorem le_segments_atom_mem (cols : List String) :
    ∀ (bounds : List α) (inc : Bool), ∀ seg ∈ _le_segments cols bounds inc, ∀ a ∈ seg,
      a.col ∈ cols ∧ a.val ∈ bounds := by
  induction cols with
  | nil => intro bounds inc seg hseg; simp [_le_segments] at hseg
  | cons c rest ih =>
    intro bounds inc seg hseg a ha
    match rest, bounds with
    | _, [] => simp [_le_segments] at hseg
    | [], b :: bs =>
      simp only [_le_segments] at hseg
      cases inc <;> simp only [if_true, if_false, Bool.false_eq_true, reduceIte,
        List.mem_singleton] at hseg <;> subst hseg <;>
        simp only [List.mem_singleton] at ha <;> subst ha <;> simp [Atom.col, Atom.val]
    | c2 :: cs, b :: bs =>
      simp only [_le_segments, List.mem_cons, List.mem_map] at hseg
      rcases hseg with rfl | ⟨sub, hsub, rfl⟩
      · simp only [List.mem_singleton] at ha
        subst ha
        simp [Atom.col, Atom.val]
      · rcases List.mem_cons.1 ha with rfl | ha'
        · simp [Atom.col, Atom.val]
        · have := ih bs inc sub hsub a ha'
          exact ⟨List.mem_cons_of_mem _ this.1, List.mem_cons_of_mem _ this.2⟩

theorem build_atom_mem [DecidableEq α] (cols : List String) :
    ∀ (left right : List α) (is_last : Bool),
      ∀ seg ∈ build_composite_slice_wheres cols left right is_last, ∀ a ∈ seg,
        a.col ∈ cols ∧ a.val ∈ left ++ right := by
  induction cols with
  | nil => intro left right is_last seg hseg; simp [build_composite_slice_wheres] at hseg
  | cons c rest ih =>
    intro left right is_last seg hseg a ha
    match rest, left, right with
    | _, [], _ => simp [build_composite_slice_wheres] at hseg
    | _, _ :: _, [] => simp [build_composite_slice_wheres] at hseg
    | [], l :: ls, r :: rs =>
      simp only [build_composite_slice_wheres] at hseg
      cases is_last <;>
        simp only [if_true, if_false, Bool.false_eq_true, reduceIte,
          List.mem_singleton] at hseg <;> subst hseg <;>
        rcases List.mem_cons.1 ha with rfl | ha' <;>
        simp_all [Atom.col, Atom.val]
    | c2 :: cs, l :: ls, r :: rs =>
      by_cases hlr : l = r
      · subst hlr
        simp only [build_composite_slice_wheres, eq_self_iff_true, if_true, List.mem_map] at hseg
        rcases hseg with ⟨sub, hsub, rfl⟩
        rcases List.mem_cons.1 ha with rfl | ha'
        · simp [Atom.col, Atom.val]
        · have := ih ls rs is_last sub hsub a ha'
          refine ⟨List.mem_cons_of_mem _ this.1, ?_⟩
          simp only [List.mem_append] at this ⊢
          rcases this.2 with h | h
          · exact Or.inl (List.mem_cons_of_mem _ h)
          · exact Or.inr (List.mem_cons_of_mem _ h)
      · simp only [build_composite_slice_wheres, if_neg hlr, List.mem_append,
          List.mem_map, List.mem_singleton] at hseg
        rcases hseg with (⟨sub, hsub, rfl⟩ | rfl) | ⟨sub, hsub, rfl⟩
        · rcases List.mem_cons.1 ha with rfl | ha'
          · simp [Atom.col, Atom.val]
          · have := ge_segments_atom_mem (c2 :: cs) ls sub hsub a ha'
            exact ⟨List.mem_cons_of_mem _ this.1,
              List.mem_append.2 (Or.inl (List.mem_cons_of_mem _ this.2))⟩
        · rcases List.mem_cons.1 ha with rfl | ha'
          · simp [Atom.col, Atom.val]
          · simp only [List.mem_singleton] at ha'
            subst ha'
            simp [Atom.col, Atom.val]
        · rcases List.mem_cons.1 ha with rfl | ha'
          · simp [Atom.col, Atom.val]
          · have := le_segments_atom_mem (c2 :: cs) rs is_last sub hsub a ha'
            exact ⟨List.mem_cons_of_mem _ this.1,
              List.mem_append.2 (Or.inr (List.mem_cons_of_mem _ this.2))⟩

end AtomMem

section DropHead

variable {α : Type} [LinearOrder α]

theorem satAny_drop_head {c : String} {ws : List (List (Atom α))} (cols : List String)
    (v : α) (t : List α) (h : ∀ seg ∈ ws, ∀ a ∈ seg, a.col ≠ c) :
    satAny (c :: cols) (v :: t) ws = satAny cols t ws := by
  induction ws with
  | nil => rfl
  | cons s rest ih =>
    simp only [satAny, List.any_cons]
    rw [satSeg_cons_ne cols v t (h s (by simp)),
      show (rest.any (satSeg (c :: cols) (v :: t)) = rest.any (satSeg cols t)) from
        ih fun seg hseg => h seg (by simp [hseg])]

end DropHead

/-! ## Semantic correctness of the band expansions -/

section BandCorrect

variable {α : Type} [LinearOrder α]

theorem ge_segments_sat :
    ∀ (cols : List String) (bounds t : List α), cols ≠ [] → cols.Nodup →
      bounds.length = cols.length → t.length = cols.length →
      satAny cols t (_ge_segments cols bounds) = lexLeB bounds t := by
  intro cols
  induction cols with
  | nil => intro _ _ h; exact absurd rfl h
  | cons c rest ih =>
    intro bounds t _ hnd hb ht
    match rest, bounds, t, hb, ht with
    | [], [b], [x], _, _ =>
      show (satSeg [c] [x] [Atom.ge c b] || false) = lexLeB [b] [x]
      rw [satSeg_cons]
      show (satAtom [c] [x] (Atom.ge c b) && true || false) = _
      rw [satAtom_ge_head]
      show _ = (decide (b < x) || (decide (b = x) && true))
      rcases lt_trichotomy b x with h | h | h
      · simp [h, le_of_lt h]
      · simp [h]
      · simp [h.ne, h.ne', h.not_lt, not_le_of_lt h]
    | c2 :: cs, b :: bs, x :: xs, hb, ht =>
      have hb' : bs.length = (c2 :: cs).length := by simpa using hb
      have ht' : xs.length = (c2 :: cs).length := by simpa using ht
      have hcnot : c ∉ c2 :: cs := (List.nodup_cons.1 hnd).1
      have hdrop : ∀ seg ∈ _ge_segments (c2 :: cs) bs, ∀ a ∈ seg, a.col ≠ c := by
        intro seg hseg a ha
        intro hc
        exact hcnot (hc ▸ (ge_segments_atom_mem (c2 :: cs) bs seg hseg a ha).1)
      show satAny (c :: c2 :: cs) (x :: xs)
          (((_ge_segments (c2 :: cs) bs).map fun sub => Atom.eq c b :: sub)
            ++ [[Atom.gt c b]]) = _
      rw [satAny_append, satAny_map_cons, satAny_drop_head _ _ _ hdrop,
        ih bs xs (by simp) (List.nodup_cons.1 hnd).2 hb' ht', satAtom_eq_head]
      show (decide (x = b) && lexLeB bs xs || (satSeg _ _ [Atom.gt c b] || false)) = _
      rw [satSeg_cons]
      show (decide (x = b) && lexLeB bs xs
          || (satAtom (c :: c2 :: cs) (x :: xs) (Atom.gt c b) && true || false)) = _
      rw [satAtom_gt_head]
      show _ = (decide (b < x) || (decide (b = x) && lexLeB bs xs))
      rcases lt_trichotomy b x with h | h | h
      · simp [h]
      · simp [h]
      · simp [h.ne, h.ne', h.not_lt]

theorem le_segments_sat :
    ∀ (cols : List String) (bounds t : List α) (inc : Bool), cols ≠ [] → cols.Nodup →
      bounds.length = cols.length → t.length = cols.length →
      satAny cols t (_le_segments cols bounds inc)
        = (if inc then lexLeB t bounds else lexLtB t bounds) := by
  intro cols
  induction cols with
  | nil => intro _ _ _ h; exact absurd rfl h
  | cons c rest ih =>
    intro bounds t inc _ hnd hb ht
    match rest, bounds, t, hb, ht with
    | [], [b], [x], _, _ =>
      cases inc with
      | true =>
        show (satSeg [c] [x] [Atom.le c b] || false) = lexLeB [x] [b]
        rw [satSeg_cons]
        show (satAtom [c] [x] (Atom.le c b) && true || false) = _
        rw [satAtom_le_head]
        show _ = (decide (x < b) || (decide (x = b) && true))
        rcases lt_trichotomy x b with h | h | h
        · simp [h, le_of_lt h]
        · simp [h]
        · simp [h.ne, h.ne', h.not_lt, not_le_of_lt h]
      | false =>
        show (satSeg [c] [x] [Atom.lt c b] || false) = lexLtB [x] [b]
        rw [satSeg_cons]
        show (satAtom [c] [x] (Atom.lt c b) && true || false) = _
        rw [satAtom_lt_head]
        show _ = (decide (x < b) || (decide (x = b) && false))
        rcases lt_trichotomy x b with h | h | h <;> simp [h]
    | c2 :: cs, b :: bs, x :: xs, hb, ht =>
      have hb' : bs.length = (c2 :: cs).length := by simpa using hb
      have ht' : xs.length = (c2 :: cs).length := by simpa using ht
      have hcnot : c ∉ c2 :: cs := (List.nodup_cons.1 hnd).1
      have hdrop : ∀ seg ∈ _le_segments (c2 :: cs) bs inc, ∀ a ∈ seg, a.col ≠ c := by
        intro seg hseg a ha hc
        exact hcnot (hc ▸ (le_segments_atom_mem (c2 :: cs) bs inc seg hseg a ha).1)
      show satAny (c :: c2 :: cs) (x :: xs)
          ([Atom.lt c b] :: ((_le_segments (c2 :: cs) bs inc).map fun sub => Atom.eq c b :: sub)) = _
      show (satSeg (c :: c2 :: cs) (x :: xs) [Atom.lt c b]
          || satAny (c :: c2 :: cs) (x :: xs)
              ((_le_segments (c2 :: cs) bs inc).map fun sub => Atom.eq c b :: sub)) = _
      rw [satAny_map_cons, satAny_drop_head _ _ _ hdrop,
        ih bs xs inc (by simp) (List.nodup_cons.1 hnd).2 hb' ht', satAtom_eq_head, satSeg_cons]
      show (satAtom (c :: c2 :: cs) (x :: xs) (Atom.lt c b) && true
          || decide (x = b) && (if inc then lexLeB xs bs else lexLtB xs bs)) = _
      rw [satAtom_lt_head]
      cases inc with
      | true =>
        show _ = (decide (x < b) || (decide (x = b) && lexLeB xs bs))
        rcases lt_trichotomy x b with h | h | h <;> simp [h]
      | false =>
        show _ = (decide (x < b) || (decide (x = b) && lexLtB xs bs))
        rcases lt_trichotomy x b with h | h | h <;> simp [h]

end BandCorrect

/-! ## Semantic correctness of the composite decomposition -/

section BuildCorrect

variable {α : Type} [LinearOrder α]

theorem lexLeB_singleton (a b : α) : lexLeB [a] [b] = decide (a ≤ b) := by
  show (decide (a < b) || (decide (a = b) && true)) = _
  rcases lt_trichotomy a b with h | h | h
  · simp [h, le_of_lt h]
  · simp [h]
  · simp [ne_of_gt h, lt_asymm h, not_le_of_lt h]

theorem lexLtB_singleton (a b : α) : lexLtB [a] [b] = decide (a < b) := by
  show (decide (a < b) || (decide (a = b) && false)) = _
  simp

theorem build_sat :
    ∀ (cols : List String) (left right t : List α) (is_last : Bool), cols ≠ [] → cols.Nodup →
      left.length = cols.length → right.length = cols.length → t.length = cols.length →
      lexLtB left right = true →
      satAny cols t (build_composite_slice_wheres cols left right is_last)
        = (lexLeB left t && (if is_last then lexLeB t right else lexLtB t right)) := by
  intro cols
  induction cols with
  | nil => intro _ _ _ _ h; exact absurd rfl h
  | cons c rest ih =>
    intro left right t is_last _ hnd hl hr ht hlt
    match rest, left, right, t, hl, hr, ht with
    | [], [l], [r], [x], _, _, _ =>
      cases is_last with
      | true =>
        show (satSeg [c] [x] [Atom.ge c l, Atom.le c r] || false) = _
        rw [satSeg_cons, satSeg_cons]
        show (satAtom [c] [x] (Atom.ge c l)
            && (satAtom [c] [x] (Atom.le c r) && true) || false) = _
        rw [satAtom_ge_head, satAtom_le_head, lexLeB_singleton, lexLeB_singleton]
        simp
      | false =>
        show (satSeg [c] [x] [Atom.ge c l, Atom.lt c r] || false) = _
        rw [satSeg_cons, satSeg_cons]
        show (satAtom [c] [x] (Atom.ge c l)
            && (satAtom [c] [x] (Atom.lt c r) && true) || false) = _
        rw [satAtom_ge_head, satAtom_lt_head, lexLeB_singleton, lexLtB_singleton]
        simp
    | c2 :: cs, l :: ls, r :: rs, x :: xs, hl, hr, ht =>
      have hl' : ls.length = (c2 :: cs).length := by simpa using hl
      have hr' : rs.length = (c2 :: cs).length := by simpa using hr
      have ht' : xs.length = (c2 :: cs).length := by simpa using ht
      have hcnot : c ∉ c2 :: cs := (List.nodup_cons.1 hnd).1
      have hnd' : (c2 :: cs).Nodup := (List.nodup_cons.1 hnd).2
      by_cases hlr : l = r
      · subst hlr
        have hlt' : lexLtB ls rs = true := by
          simpa [lexLtB, lt_irrefl] using hlt
        have hdrop : ∀ seg ∈ build_composite_slice_wheres (c2 :: cs) ls rs is_last,
            ∀ a ∈ seg, a.col ≠ c := by
          intro seg hseg a ha hc
          exact hcnot (hc ▸ (build_atom_mem (c2 :: cs) ls rs is_last seg hseg a ha).1)
        simp only [build_composite_slice_wheres, eq_self_iff_true, if_true]
        rw [satAny_map_cons, satAny_drop_head _ _ _ hdrop,
          ih ls rs xs is_last (by simp) hnd' hl' hr' ht' hlt', satAtom_eq_head]
        show _ = (lexLeB (l :: ls) (x :: xs)
            && if is_last then lexLeB (x :: xs) (l :: rs) else lexLtB (x :: xs) (l :: rs))
        simp only [lexLeB, lexLtB]
        rcases lt_trichotomy l x with h1 | h1 | h1
        · simp [h1, h1.ne, h1.ne', lt_asymm h1]
        · subst h1
          simp [lt_irrefl]
        · simp [h1.ne, h1.ne', lt_asymm h1]
      · have hlr' : l < r := by
          have h2 := hlt
          simp only [lexLtB, Bool.or_eq_true, Bool.and_eq_true, decide_eq_true_eq] at h2
          rcases h2 with h2 | ⟨h2, _⟩
          · exact h2
          · exact absurd h2 hlr
        have hdropge : ∀ seg ∈ _ge_segments (c2 :: cs) ls, ∀ a ∈ seg, a.col ≠ c := by
          intro seg hseg a ha hc
          exact hcnot (hc ▸ (ge_segments_atom_mem (c2 :: cs) ls seg hseg a ha).1)
        have hdople : ∀ seg ∈ _le_segments (c2 :: cs) rs is_last, ∀ a ∈ seg, a.col ≠ c := by
          intro seg hseg a ha hc
          exact hcnot (hc ▸ (le_segments_atom_mem (c2 :: cs) rs is_last seg hseg a ha).1)
        have hA : satAny (c :: c2 :: cs) (x :: xs)
            ((_ge_segments (c2 :: cs) ls).map fun seg => Atom.eq c l :: seg)
            = (decide (x = l) && lexLeB ls xs) := by
          rw [satAny_map_cons, satAny_drop_head _ _ _ hdropge,
            ge_segments_sat (c2 :: cs) ls xs (by simp) hnd' hl' ht', satAtom_eq_head]
        have hB : satAny (c :: c2 :: cs) (x :: xs) [[Atom.gt c l, Atom.lt c r]]
            = (decide (l < x) && decide (x < r)) := by
          show (satSeg _ _ [Atom.gt c l, Atom.lt c r] || false) = _
          rw [satSeg_cons, satSeg_cons]
          show (satAtom (c :: c2 :: cs) (x :: xs) (Atom.gt c l)
              && (satAtom (c :: c2 :: cs) (x :: xs) (Atom.lt c r) && true) || false) = _
          rw [satAtom_gt_head, satAtom_lt_head]
          simp
        have hC : satAny (c :: c2 :: cs) (x :: xs)
            ((_le_segments (c2 :: cs) rs is_last).map fun seg => Atom.eq c r :: seg)
            = (decide (x = r) && if is_last then lexLeB xs rs else lexLtB xs rs) := by
          rw [satAny_map_cons, satAny_drop_head _ _ _ hdople,
            le_segments_sat (c2 :: cs) rs xs is_last (by simp) hnd' hr' ht', satAtom_eq_head]
        simp only [build_composite_slice_wheres, if_neg hlr]
        rw [satAny_append, satAny_append, hA, hB, hC]
        show _ = (lexLeB (l :: ls) (x :: xs)
            && if is_last then lexLeB (x :: xs) (r :: rs) else lexLtB (x :: xs) (r :: rs))
        simp only [lexLeB, lexLtB]
        rcases lt_trichotomy l x with h1 | h1 | h1
        · rcases lt_trichotomy x r with h2 | h2 | h2
          · simp [h1, h2, h1.ne']
          · subst h2
            cases is_last <;> simp [h1, h1.ne', lt_irrefl]
          · cases is_last <;> simp [h1, h1.ne', h2.ne', lt_asymm h2]
        · subst h1
          cases is_last <;> simp [lt_irrefl, hlr, hlr']
        · have hxr : x < r := lt_trans h1 hlr'
          cases is_last <;> simp [h1.ne, h1.ne', lt_asymm h1, hxr.ne, hxr]

end BuildCorrect

/-! ## Disjointness of emitted predicates -/

section Disjoint

variable {α : Type} [LinearOrder α]

/-- Two predicates are disjoint over the key domain: no key tuple of the
right arity satisfies both. -/
def SegsDisj (cols : List String) (s1 s2 : List (Atom α)) : Prop :=
  ∀ t : List α, t.length = cols.length →
    ¬(satSeg cols t s1 = true ∧ satSeg cols t s2 = true)

theorem segsDisj_cons_same {c : String} {cols : List String}
    {s1 s2 : List (Atom α)}
    (h1 : ∀ a ∈ s1, a.col ≠ c) (h2 : ∀ a ∈ s2, a.col ≠ c)
    (h : SegsDisj cols s1 s2) (a1 a2 : Atom α) :
    SegsDisj (c :: cols) (a1 :: s1) (a2 :: s2) := by
  intro t ht
  match t, ht with
  | v :: vs, ht =>
    intro ⟨hs1, hs2⟩
    rw [satSeg_cons, Bool.and_eq_true] at hs1 hs2
    rw [satSeg_cons_ne cols v vs h1] at hs1
    rw [satSeg_cons_ne cols v vs h2] at hs2
    exact h vs (by simpa using ht) ⟨hs1.2, hs2.2⟩

theorem satSeg_nil (cols : List String) (t : List α) : satSeg cols t [] = true := rfl

theorem ge_segments_pairwise :
    ∀ (cols : List String) (bounds : List α), cols.Nodup → bounds.length = cols.length →
      (_ge_segments cols bounds).Pairwise (SegsDisj cols) := by
  intro cols
  induction cols with
  | nil => intro bounds _ _; simp [_ge_segments]
  | cons c rest ih =>
    intro bounds hnd hb
    match rest, bounds, hb with
    | [], [b], _ => simp [_ge_segments]
    | c2 :: cs, b :: bs, hb =>
      have hb' : bs.length = (c2 :: cs).length := by simpa using hb
      have hcnot : c ∉ c2 :: cs := (List.nodup_cons.1 hnd).1
      have hnd' : (c2 :: cs).Nodup := (List.nodup_cons.1 hnd).2
      have hcol : ∀ seg ∈ _ge_segments (c2 :: cs) bs, ∀ a ∈ seg, a.col ≠ c := by
        intro seg hseg a ha hc
        exact hcnot (hc ▸ (ge_segments_atom_mem (c2 :: cs) bs seg hseg a ha).1)
      show (((_ge_segments (c2 :: cs) bs).map fun sub => Atom.eq c b :: sub)
          ++ [[Atom.gt c b]]).Pairwise (SegsDisj (c :: c2 :: cs))
      rw [List.pairwise_append]
      refine ⟨?_, List.pairwise_singleton _ _, ?_⟩
      · rw [List.pairwise_map]
        exact (ih bs hnd' hb').imp_of_mem fun {s1 s2} hm1 hm2 hd =>
          segsDisj_cons_same (hcol s1 hm1) (hcol s2 hm2) hd _ _
      · intro s1 hs1 s2 hs2 t ht
        simp only [List.mem_map] at hs1
        simp only [List.mem_singleton] at hs2
        rcases hs1 with ⟨sub, _, rfl⟩
        subst hs2
        match t, ht with
        | v :: vs, ht =>
          intro ⟨h1, h2⟩
          rw [satSeg_cons, Bool.and_eq_true, satAtom_eq_head] at h1
          rw [satSeg_cons, Bool.and_eq_true, satAtom_gt_head] at h2
          have hv : v = b := of_decide_eq_true h1.1
          have hv' : b < v := of_decide_eq_true h2.1
          exact absurd (hv ▸ hv') (lt_irrefl b)

theorem le_segments_pairwise :
    ∀ (cols : List String) (bounds : List α) (inc : Bool), cols.Nodup →
      bounds.length = cols.length →
      (_le_segments cols bounds inc).Pairwise (SegsDisj cols) := by
  intro cols
  induction cols with
  | nil => intro bounds inc _ _; simp [_le_segments]
  | cons c rest ih =>
    intro bounds inc hnd hb
    match rest, bounds, hb with
    | [], [b], _ => cases inc <;> simp [_le_segments]
    | c2 :: cs, b :: bs, hb =>
      have hb' : bs.length = (c2 :: cs).length := by simpa using hb
      have hcnot : c ∉ c2 :: cs := (List.nodup_cons.1 hnd).1
      have hnd' : (c2 :: cs).Nodup := (List.nodup_cons.1 hnd).2
      have hcol : ∀ seg ∈ _le_segments (c2 :: cs) bs inc, ∀ a ∈ seg, a.col ≠ c := by
        intro seg hseg a ha hc
        exact hcnot (hc ▸ (le_segments_atom_mem (c2 :: cs) bs inc seg hseg a ha).1)
      show ([Atom.lt c b] :: ((_le_segments (c2 :: cs) bs inc).map
          fun sub => Atom.eq c b :: sub)).Pairwise (SegsDisj (c :: c2 :: cs))
      rw [List.pairwise_cons]
      constructor
      · intro s2 hs2 t ht
        simp only [List.mem_map] at hs2
        rcases hs2 with ⟨sub, _, rfl⟩
        match t, ht with
        | v :: vs, ht =>
          intro ⟨h1, h2⟩
          rw [satSeg_cons, Bool.and_eq_true, satAtom_lt_head] at h1
          rw [satSeg_cons, Bool.and_eq_true, satAtom_eq_head] at h2
          have hv : v < b := of_decide_eq_true h1.1
          have hv' : v = b := of_decide_eq_true h2.1
          exact absurd (hv' ▸ hv) (lt_irrefl b)
      · rw [List.pairwise_map]
        exact (ih bs inc hnd' hb').imp_of_mem fun {s1 s2} hm1 hm2 hd =>
          segsDisj_cons_same (hcol s1 hm1) (hcol s2 hm2) hd _ _

theorem build_pairwise :
    ∀ (cols : List String) (left right : List α) (is_last : Bool), cols.Nodup →
      left.length = cols.length → right.length = cols.length →
      (build_composite_slice_wheres cols left right is_last).Pairwise (SegsDisj cols) := by
  intro cols
  induction cols with
  | nil => intro left right is_last _ _ _; simp [build_composite_slice_wheres]
  | cons c rest ih =>
    intro left right is_last hnd hl hr
    match rest, left, right, hl, hr with
    | [], [l], [r], _, _ => cases is_last <;> simp [build_composite_slice_wheres]
    | c2 :: cs, l :: ls, r :: rs, hl, hr =>
      have hl' : ls.length = (c2 :: cs).length := by simpa using hl
      have hr' : rs.length = (c2 :: cs).length := by simpa using hr
      have hcnot : c ∉ c2 :: cs := (List.nodup_cons.1 hnd).1
      have hnd' : (c2 :: cs).Nodup := (List.nodup_cons.1 hnd).2
      by_cases hlr : l = r
      · subst hlr
        have hcol : ∀ seg ∈ build_composite_slice_wheres (c2 :: cs) ls rs is_last,
            ∀ a ∈ seg, a.col ≠ c := by
          intro seg hseg a ha hc
          exact hcnot (hc ▸ (build_atom_mem (c2 :: cs) ls rs is_last seg hseg a ha).1)
        simp only [build_composite_slice_wheres, eq_self_iff_true, if_true]
        rw [List.pairwise_map]
        exact (ih ls rs is_last hnd' hl' hr').imp_of_mem fun {s1 s2} hm1 hm2 hd =>
          segsDisj_cons_same (hcol s1 hm1) (hcol s2 hm2) hd _ _
      · have hcolge : ∀ seg ∈ _ge_segments (c2 :: cs) ls, ∀ a ∈ seg, a.col ≠ c := by
          intro seg hseg a ha hc
          exact hcnot (hc ▸ (ge_segments_atom_mem (c2 :: cs) ls seg hseg a ha).1)
        have hcolle : ∀ seg ∈ _le_segments (c2 :: cs) rs is_last, ∀ a ∈ seg, a.col ≠ c := by
          intro seg hseg a ha hc
          exact hcnot (hc ▸ (le_segments_atom_mem (c2 :: cs) rs is_last seg hseg a ha).1)
        simp only [build_composite_slice_wheres, if_neg hlr]
        rw [List.pairwise_append]
        refine ⟨?_, ?_, ?_⟩
        · -- lower band together with the middle band
          rw [List.pairwise_append]
          refine ⟨?_, List.pairwise_singleton _ _, ?_⟩
          · rw [List.pairwise_map]
            exact (ge_segments_pairwise (c2 :: cs) ls hnd' hl').imp_of_mem
              fun {s1 s2} hm1 hm2 hd =>
                segsDisj_cons_same (hcolge s1 hm1) (hcolge s2 hm2) hd _ _
          · -- lower band vs middle band
            intro s1 hs1 s2 hs2 t ht
            simp only [List.mem_map] at hs1
            simp only [List.mem_singleton] at hs2
            rcases hs1 with ⟨sub, _, rfl⟩
            subst hs2
            match t, ht with
            | v :: vs, ht =>
              intro ⟨h1, h2⟩
              rw [satSeg_cons, Bool.and_eq_true, satAtom_eq_head] at h1
              rw [satSeg_cons, Bool.and_eq_true, satAtom_gt_head] at h2
              have hv : v = l := of_decide_eq_true h1.1
              have hv' : l < v := of_decide_eq_true h2.1
              subst hv
              exact lt_irrefl v hv'
        · -- upper band
          rw [List.pairwise_map]
          exact (le_segments_pairwise (c2 :: cs) rs is_last hnd' hr').imp_of_mem
            fun {s1 s2} hm1 hm2 hd =>
              segsDisj_cons_same (hcolle s1 hm1) (hcolle s2 hm2) hd _ _
        · -- lower and middle bands vs upper band
          intro s1 hs1 s2 hs2 t ht
          simp only [List.mem_append, List.mem_singleton, List.mem_map] at hs1
          simp only [List.mem_map] at hs2
          rcases hs2 with ⟨sub2, _, rfl⟩
          match t, ht with
          | v :: vs, ht =>
            intro ⟨h1, h2⟩
            rw [satSeg_cons, Bool.and_eq_true, satAtom_eq_head] at h2
            have hvr : v = r := of_decide_eq_true h2.1
            rcases hs1 with ⟨sub, _, rfl⟩ | rfl
            · rw [satSeg_cons, Bool.and_eq_true, satAtom_eq_head] at h1
              have hvl : v = l := of_decide_eq_true h1.1
              exact hlr ((hvl.symm.trans hvr) ▸ rfl)
            · simp only [satSeg_cons, satSeg_nil, Bool.and_eq_true, Bool.and_true,
                satAtom_gt_head, satAtom_lt_head, decide_eq_true_eq] at h1
              subst hvr
              exact lt_irrefl v h1.2

end Disjoint

/-! ## Counting lemmas -/

section Counting

variable {α : Type}

theorem ge_segments_length :
    ∀ (cols : List String) (bounds : List α), cols ≠ [] → bounds.length = cols.length →
      (_ge_segments cols bounds).length = cols.length := by
  intro cols
  induction cols with
  | nil => intro _ h; exact absurd rfl h
  | cons c rest ih =>
    intro bounds _ hb
    match rest, bounds, hb with
    | [], [b], _ => rfl
    | c2 :: cs, b :: bs, hb =>
      show (((_ge_segments (c2 :: cs) bs).map fun sub => Atom.eq c b :: sub)
          ++ [[Atom.gt c b]]).length = _
      rw [List.length_append, List.length_map,
        ih bs (by simp) (by simpa using hb)]
      rfl

theorem le_segments_length :
    ∀ (cols : List String) (bounds : List α) (inc : Bool), cols ≠ [] →
      bounds.length = cols.length →
      (_le_segments cols bounds inc).length = cols.length := by
  intro cols
  induction cols with
  | nil => intro _ _ h; exact absurd rfl h
  | cons c rest ih =>
    intro bounds inc _ hb
    match rest, bounds, hb with
    | [], [b], _ => cases inc <;> rfl
    | c2 :: cs, b :: bs, hb =>
      show ([Atom.lt c b] :: ((_le_segments (c2 :: cs) bs inc).map
          fun sub => Atom.eq c b :: sub)).length = _
      rw [List.length_cons, List.length_map,
        ih bs inc (by simp) (by simpa using hb)]
      rfl

theorem build_length_le [DecidableEq α] :
    ∀ (cols : List String) (left right : List α) (is_last : Bool), cols ≠ [] →
      left.length = cols.length → right.length = cols.length →
      (build_composite_slice_wheres cols left right is_last).length
        ≤ 2 * (cols.length - 1) + 1 := by
  intro cols
  induction cols with
  | nil => intro _ _ _ h; exact absurd rfl h
  | cons c rest ih =>
    intro left right is_last _ hl hr
    match rest, left, right, hl, hr with
    | [], [l], [r], _, _ => cases is_last <;> simp [build_composite_slice_wheres]
    | c2 :: cs, l :: ls, r :: rs, hl, hr =>
      have hl' : ls.length = (c2 :: cs).length := by simpa using hl
      have hr' : rs.length = (c2 :: cs).length := by simpa using hr
      by_cases hlr : l = r
      · subst hlr
        simp only [build_composite_slice_wheres, eq_self_iff_true, if_true, List.length_map]
        have hrec := ih ls rs is_last (by simp) hl' hr'
        simp only [List.length_cons] at hrec ⊢
        omega
      · simp only [build_composite_slice_wheres, if_neg hlr, List.length_append,
          List.length_map, List.length_cons,
          ge_segments_length (c2 :: cs) ls (by simp) hl',
          le_segments_length (c2 :: cs) rs is_last (by simp) hr',
          List.length_cons, List.length_nil]
        omega

/-- Exact predicate count when the bound tuples first differ at index `j`. -/
theorem build_length_firstdiff [DecidableEq α] :
    ∀ (cols : List String) (left right : List α) (is_last : Bool) (j : Nat), cols ≠ [] →
      left.length = cols.length → right.length = cols.length → j < cols.length →
      (∀ i, i < j → left[i]? = right[i]?) → left[j]? ≠ right[j]? →
      (build_composite_slice_wheres cols left right is_last).length
        = 2 * (cols.length - j) - 1 := by
  intro cols
  induction cols with
  | nil => intro _ _ _ _ h; exact absurd rfl h
  | cons c rest ih =>
    intro left right is_last j _ hl hr hj hpre hdiff
    match rest, left, right, hl, hr with
    | [], [l], [r], _, _ =>
      have hj0 : j = 0 := by simpa using hj
      cases is_last <;> simp [build_composite_slice_wheres, hj0]
    | c2 :: cs, l :: ls, r :: rs, hl, hr =>
      have hl' : ls.length = (c2 :: cs).length := by simpa using hl
      have hr' : rs.length = (c2 :: cs).length := by simpa using hr
      match j with
      | 0 =>
        have hlr : l ≠ r := by
          intro h
          exact hdiff (by simp [h])
        simp only [build_composite_slice_wheres, if_neg hlr, List.length_append,
          List.length_map, List.length_cons,
          ge_segments_length (c2 :: cs) ls (by simp) hl',
          le_segments_length (c2 :: cs) rs is_last (by simp) hr',
          List.length_cons, List.length_nil]
        omega
      | j + 1 =>
        have hlr : l = r := by
          have := hpre 0 (Nat.succ_pos j)
          simpa using this
        subst hlr
        have hcount := ih ls rs is_last j (by simp) hl' hr' (by simpa using hj)
          (fun i hi => by simpa using hpre (i + 1) (by omega))
          (by simpa using hdiff)
        simp only [build_composite_slice_wheres, eq_self_iff_true, if_true,
          List.length_map, hcount, List.length_cons]
        omega

theorem slicePairs_length : ∀ (l : List α), (slicePairs l).length = l.length - 1
  | [] => rfl
  | [_] => rfl
  | [_, _] => rfl
  | a :: b :: c :: rest => by
    have ih := slicePairs_length (b :: c :: rest)
    show ((a, b, false) :: slicePairs (b :: c :: rest)).length = _
    simp only [List.length_cons, ih]
    omega

theorem slicePairs_get :
    ∀ (l : List α) (i : Nat) (lo hi : α), l[i]? = some lo → l[i + 1]? = some hi →
      (slicePairs l)[i]? = some (lo, hi, decide (i + 2 = l.length))
  | [], i, lo, hi, h1, _ => by simp at h1
  | [a], i, lo, hi, _, h2 => by
    match i with
    | 0 => simp at h2
    | i + 1 => simp at h2
  | [a, b], i, lo, hi, h1, h2 => by
    match i with
    | 0 =>
      simp only [List.getElem?_cons_zero, Option.some_inj] at h1
      simp only [List.getElem?_cons_succ, List.getElem?_cons_zero, Option.some_inj] at h2
      subst h1; subst h2
      show some (a, b, true) = some (a, b, decide (0 + 2 = 2))
      rfl
    | i + 1 => simp at h2
  | a :: b :: c :: rest, i, lo, hi, h1, h2 => by
    match i with
    | 0 =>
      simp only [List.getElem?_cons_zero, Option.some_inj] at h1
      simp only [List.getElem?_cons_succ, List.getElem?_cons_zero, Option.some_inj] at h2
      subst h1; subst h2
      rw [show slicePairs (a :: b :: c :: rest)
            = (a, b, false) :: slicePairs (b :: c :: rest) from rfl,
        List.getElem?_cons_zero]
      have h3 : decide (0 + 2 = (a :: b :: c :: rest).length) = false := by
        simp only [List.length_cons, decide_eq_false_iff_not]
        omega
      rw [h3]
    | i + 1 =>
      have ih := slicePairs_get (b :: c :: rest) i lo hi (by simpa using h1) (by simpa using h2)
      rw [show slicePairs (a :: b :: c :: rest)
            = (a, b, false) :: slicePairs (b :: c :: rest) from rfl,
        List.getElem?_cons_succ, ih]
      have h3 : decide (i + 2 = (b :: c :: rest).length)
          = decide (i + 1 + 2 = (a :: b :: c :: rest).length) := by
        refine decide_eq_decide.2 ?_
        simp only [List.length_cons]
        omega
      rw [h3]

theorem slicePairs_fst_mem : ∀ (l : List α) (p : α × α × Bool), p ∈ slicePairs l → p.1 ∈ l
  | [a, b], p, hp => by
    simp only [show slicePairs [a, b] = [(a, b, true)] from rfl, List.mem_singleton] at hp
    subst hp
    simp
  | a :: b :: c :: rest, p, hp => by
    rcases List.mem_cons.1 hp with rfl | hp'
    · simp
    · exact List.mem_cons_of_mem _ (slicePairs_fst_mem (b :: c :: rest) p hp')

theorem dedupAdjFrom_eq_self [DecidableEq α] (prev : α) :
    ∀ l : List α, (prev :: l).Chain' (· ≠ ·) → dedupAdjFrom prev l = l
  | [] => fun _ => rfl
  | b :: rest => fun h => by
    have hab : prev ≠ b := (List.chain'_cons.1 h).1
    show (if b = prev then dedupAdjFrom prev rest else b :: dedupAdjFrom b rest) = _
    rw [if_neg (Ne.symm hab),
      dedupAdjFrom_eq_self b rest (List.chain'_cons.1 h).2]

theorem dedupAdj_eq_self [DecidableEq α] (l : List α) (h : l.Chain' (· ≠ ·)) :
    dedupAdj l = l := by
  match l with
  | [] => rfl
  | a :: rest =>
    show a :: dedupAdjFrom a rest = a :: rest
    rw [dedupAdjFrom_eq_self a rest h]

end Counting

/-! ## Single-key disjointness and cross-interval disjointness -/

section RunDisjoint

variable {α : Type} [LinearOrder α]

theorem satSeg_singleRange (col : String) (v lo hi : α) (fl : Bool) :
    satSeg [col] [v] (singleRange col (lo, hi, fl))
      = (decide (lo ≤ v) && (if fl then decide (v ≤ hi) else decide (v < hi))) := by
  cases fl <;>
    simp [singleRange, satSeg_cons, satSeg_nil, satAtom_ge_head, satAtom_le_head,
      satAtom_lt_head, Bool.and_true]

theorem singleRanges_pairwise (col : String) :
    ∀ l : List α, l.Chain' (· < ·) →
      ((slicePairs l).map (singleRange col)).Pairwise (SegsDisj [col])
  | [] => fun _ => by simp [slicePairs]
  | [_] => fun _ => by simp [slicePairs]
  | [a, b] => fun _ => by
    rw [show slicePairs [a, b] = [(a, b, true)] from rfl, List.map_cons, List.map_nil]
    exact List.pairwise_singleton _ _
  | a :: b :: c :: rest => fun h => by
    have hpw : (a :: b :: c :: rest).Pairwise (· < ·) := List.chain'_iff_pairwise.1 h
    rw [show slicePairs (a :: b :: c :: rest)
          = (a, b, false) :: slicePairs (b :: c :: rest) from rfl,
      List.map_cons, List.pairwise_cons]
    constructor
    · intro s2 hs2 t ht
      simp only [List.mem_map] at hs2
      rcases hs2 with ⟨p, hp, rfl⟩
      have hp1 : p.1 ∈ b :: c :: rest := slicePairs_fst_mem _ p hp
      have hble : b ≤ p.1 := by
        rcases List.mem_cons.1 hp1 with h1 | h1
        · exact le_of_eq h1.symm
        · exact le_of_lt ((List.pairwise_cons.1 (List.pairwise_cons.1 hpw).2).1 p.1 h1)
      match t, ht with
      | [v], _ =>
        intro ⟨h1, h2⟩
        rw [show singleRange col (a, b, false) = [Atom.ge col a, Atom.lt col b] from rfl] at h1
        simp only [satSeg_cons, satSeg_nil, Bool.and_true, Bool.and_eq_true,
          satAtom_ge_head, satAtom_lt_head, decide_eq_true_eq] at h1
        obtain ⟨lo, hi, fl⟩ := p
        rw [satSeg_singleRange] at h2
        simp only [Bool.and_eq_true, decide_eq_true_eq] at h2
        exact lt_irrefl b (lt_of_le_of_lt (le_trans hble h2.1) h1.2)
    · exact singleRanges_pairwise col (b :: c :: rest) (List.chain'_cons.1 h).2

theorem make_single_pairwise (col : String) (bounds : List α)
    (h : bounds.Chain' (· < ·)) :
    (make_single_pk_slices col bounds).Pairwise (SegsDisj [col]) := by
  have hd : dedupAdj bounds = bounds :=
    dedupAdj_eq_self bounds (h.imp fun _ _ hab => ne_of_lt hab)
  unfold make_single_pk_slices
  rw [hd]
  match bounds, h with
  | [], _ => simp [dupSingle, slicePairs]
  | [a], _ =>
    rw [show dupSingle [a] = [a, a] from rfl,
      show slicePairs [a, a] = [(a, a, true)] from rfl, List.map_cons, List.map_nil]
    exact List.pairwise_singleton _ _
  | a :: b :: rest, h =>
    rw [show dupSingle (a :: b :: rest) = a :: b :: rest from rfl]
    exact singleRanges_pairwise col (a :: b :: rest) h

/-- Predicates of two consecutive composite intervals sharing the boundary
`mid` never intersect. -/
theorem build_cross_disjoint (cols : List String) (low mid high : List α) (il2 : Bool)
    (hne : cols ≠ []) (hnd : cols.Nodup)
    (h1 : low.length = cols.length) (h2 : mid.length = cols.length)
    (h3 : high.length = cols.length)
    (hlm : lexLtB low mid = true) (hmh : lexLtB mid high = true) :
    ∀ s1 ∈ build_composite_slice_wheres cols low mid false,
      ∀ s2 ∈ build_composite_slice_wheres cols mid high il2, SegsDisj cols s1 s2 := by
  intro s1 hm1 s2 hm2 t ht hboth
  have hA : satAny cols t (build_composite_slice_wheres cols low mid false) = true :=
    (satAny_iff cols t _).2 ⟨s1, hm1, hboth.1⟩
  have hB : satAny cols t (build_composite_slice_wheres cols mid high il2) = true :=
    (satAny_iff cols t _).2 ⟨s2, hm2, hboth.2⟩
  rw [build_sat cols low mid t false hne hnd h1 h2 ht hlm] at hA
  rw [build_sat cols mid high t il2 hne hnd h2 h3 ht hmh] at hB
  simp only [Bool.and_eq_true] at hA hB
  have hlt : lexLtB t mid = true := by simpa using hA.2
  have hle : lexLeB mid t = true := hB.1
  rw [not_lexLt_of_lexLe hle] at hlt
  exact Bool.false_ne_true hlt

end RunDisjoint

/-! ## Substring analysis: predicates and the tokens `OR` / `UNION` -/

section Substrings

/-- A string is clean when it contains neither `OR` nor `UNION` as a
(character-level) substring. -/
def cleanStr (s : String) : Prop :=
  ¬("OR".data <:+: s.data) ∧ ¬("UNION".data <:+: s.data)

/-- A pattern containing no space character. -/
def SpaceFree (p : List Char) : Prop := ∀ ch ∈ p, ch ≠ ' '

instance (p : List Char) : Decidable (SpaceFree p) :=
  List.decidableBAll _ p

instance (s : String) : Decidable (cleanStr s) :=
  instDecidableAnd

theorem infix_append_split {p a b : List Char} (h : p <:+: a ++ b) :
    p <:+: a ∨ p <:+: b
      ∨ ∃ p1 p2, p = p1 ++ p2 ∧ p1 ≠ [] ∧ p2 ≠ [] ∧ p1 <:+ a ∧ p2 <+: b := by
  obtain ⟨s, t, hst⟩ := h
  rcases List.append_eq_append_iff.1 hst with ⟨x, hx, _⟩ | ⟨y, hy, hb⟩
  · -- a = (s ++ p) ++ x
    exact Or.inl ⟨s, x, by rw [hx, List.append_assoc]⟩
  · -- s ++ p = a ++ y and b = y ++ t
    rcases List.append_eq_append_iff.1 hy with ⟨u, hu, hp⟩ | ⟨v, _, hyv⟩
    · -- a = s ++ u and p = u ++ y
      match y, hp with
      | [], hp =>
        exact Or.inl ⟨s, [], by rw [List.append_nil] at hp ⊢; rw [← hp] at hu; rw [hu]⟩
      | y0 :: ys, hp =>
        match u, hu, hp with
        | [], hu, hp =>
          exact Or.inr (Or.inl ⟨[], t, by simp [hp, hb]⟩)
        | u0 :: us, hu, hp =>
          refine Or.inr (Or.inr ⟨u0 :: us, y0 :: ys, hp, by simp, by simp, ⟨s, hu.symm⟩, ?_⟩)
          exact ⟨t, hb.symm⟩
    · -- y = v ++ p, so p is inside b
      exact Or.inr (Or.inl ⟨v, t, by rw [hb, hyv, List.append_assoc]⟩)

/-- Appending across a separator that begins with a space cannot create a
new occurrence of a space-free pattern. -/
theorem sep_left {p a b : List Char} (hp : SpaceFree p) (hb : b.head? = some ' ')
    (ha : ¬p <:+: a) (hbb : ¬p <:+: b) : ¬p <:+: a ++ b := by
  intro h
  rcases infix_append_split h with h | h | ⟨p1, p2, hps, _, h2ne, _, hpre⟩
  · exact ha h
  · exact hbb h
  · match p2, h2ne, hpre with
    | c :: p2', _, hpre =>
      have hc : b.head? = some c := by
        rcases hpre with ⟨t2, ht2⟩
        rw [← ht2]
        rfl
      rw [hb] at hc
      have : c = ' ' := by injection hc with hc; exact hc.symm
      exact hp c (by rw [hps]; exact List.mem_append_right _ (by simp)) this

/-- Appending after a separator that ends with a space cannot create a new
occurrence of a space-free pattern. -/
theorem sep_right {p a b : List Char} (hp : SpaceFree p) (ha' : a.getLast? = some ' ')
    (haa : ¬p <:+: a) (hbb : ¬p <:+: b) : ¬p <:+: a ++ b := by
  intro h
  rcases infix_append_split h with h | h | ⟨p1, p2, hps, h1ne, _, hsuf, _⟩
  · exact haa h
  · exact hbb h
  · have hlast : p1.getLast? = some ' ' := by
      rcases hsuf with ⟨s2, hs2⟩
      rw [← hs2, List.getLast?_append_of_ne_nil _ h1ne] at ha'
      exact ha'
    have : (' ' : Char) ∈ p1 := List.mem_of_mem_getLast? hlast
    exact hp ' ' (by rw [hps]; exact List.mem_append_left _ this) rfl

/-- Cleanliness of a rendered atom `col ++ op ++ lit` for a space-delimited
operator token. -/
theorem clean_atom {p : List Char} (hp : SpaceFree p) (c op lit : String)
    (hophead : op.data.head? = some ' ') (hoplast : op.data.getLast? = some ' ')
    (hc : ¬p <:+: c.data) (hop : ¬p <:+: op.data) (hlit : ¬p <:+: lit.data) :
    ¬p <:+: (c ++ op ++ lit).data := by
  show ¬p <:+: (c.data ++ op.data) ++ lit.data
  rw [List.append_assoc]
  have hopne : op.data ≠ [] := by
    intro h
    rw [h] at hophead
    exact Option.noConfusion hophead
  refine sep_left hp ?_ hc (sep_right hp hoplast hop hlit)
  rw [List.head?_append_of_ne_nil _ hopne]
  exact hophead

/-- No rendered atom contains a space-free pattern that occurs in neither
its column name, its formatted literal, nor the comparison tokens. -/
theorem renderAtom_avoids {p : List Char} (hp : SpaceFree p)
    (heq : ¬p <:+: " = ".data) (hltT : ¬p <:+: " < ".data) (hleT : ¬p <:+: " <= ".data)
    (hgtT : ¬p <:+: " > ".data) (hgeT : ¬p <:+: " >= ".data)
    (a : Atom Value) (hc : ¬p <:+: a.col.data) (hv : ¬p <:+: (fmt_literal a.val).data) :
    ¬p <:+: (renderAtom a).data := by
  cases a with
  | eq c v => exact clean_atom hp c (" = ") (fmt_literal v) rfl (by decide) hc heq hv
  | lt c v => exact clean_atom hp c (" < ") (fmt_literal v) rfl (by decide) hc hltT hv
  | le c v => exact clean_atom hp c (" <= ") (fmt_literal v) rfl (by decide) hc hleT hv
  | gt c v => exact clean_atom hp c (" > ") (fmt_literal v) rfl (by decide) hc hgtT hv
  | ge c v => exact clean_atom hp c (" >= ") (fmt_literal v) rfl (by decide) hc hgeT hv

theorem renderWhere_avoids {p : List Char} (hp : SpaceFree p) (hnil : p ≠ [])
    (hand : ¬p <:+: " AND ".data) :
    ∀ seg : List (Atom Value), (∀ a ∈ seg, ¬p <:+: (renderAtom a).data) →
      ¬p <:+: (renderWhere seg).data
  | [] => fun _ h => hnil (List.eq_nil_of_infix_nil h)
  | [a] => fun h => h a (by simp)
  | a :: b :: rest => fun h => by
    show ¬p <:+: (renderAtom a).data ++ " AND ".data ++ (renderWhere (b :: rest)).data
    rw [List.append_assoc]
    refine sep_left hp ?_ (h a (by simp)) (sep_right hp (by decide) hand ?_)
    · rw [List.head?_append_of_ne_nil _ (by decide : " AND ".data ≠ [])]
      rfl
    · exact renderWhere_avoids hp hnil hand (b :: rest) fun x hx => h x (by simp [hx])

theorem build_render_avoids {p : List Char} (hp : SpaceFree p) (hnil : p ≠ [])
    (hand : ¬p <:+: " AND ".data)
    (heq : ¬p <:+: " = ".data) (hltT : ¬p <:+: " < ".data) (hleT : ¬p <:+: " <= ".data)
    (hgtT : ¬p <:+: " > ".data) (hgeT : ¬p <:+: " >= ".data)
    (cols : List String) (left right : List Value) (il : Bool)
    (hc : ∀ c ∈ cols, ¬p <:+: c.data)
    (hv : ∀ v ∈ left ++ right, ¬p <:+: (fmt_literal v).data) :
    ∀ w ∈ build_composite_slice_wheres cols left right il,
      ¬p <:+: (renderWhere w).data := by
  intro w hw
  refine renderWhere_avoids hp hnil hand w ?_
  intro a ha
  have hmem := build_atom_mem cols left right il w hw a ha
  exact renderAtom_avoids hp heq hltT hleT hgtT hgeT a (hc _ hmem.1) (hv _ hmem.2)

theorem slicePairs_snd_mem {α : Type} :
    ∀ (l : List α) (p : α × α × Bool), p ∈ slicePairs l → p.2.1 ∈ l
  | [a, b], p, hp => by
    simp only [show slicePairs [a, b] = [(a, b, true)] from rfl, List.mem_singleton] at hp
    subst hp
    simp
  | a :: b :: c :: rest, p, hp => by
    rcases List.mem_cons.1 hp with rfl | hp'
    · simp
    · exact List.mem_cons_of_mem _ (slicePairs_snd_mem (b :: c :: rest) p hp')

theorem dupSingle_subset {α : Type} : ∀ (l : List α), ∀ x ∈ dupSingle l, x ∈ l
  | [], x, hx => by simp [dupSingle] at hx
  | [a], x, hx => by
    simp only [show dupSingle [a] = [a, a] from rfl] at hx
    rcases List.mem_cons.1 hx with rfl | hx' <;> simp_all
  | a :: b :: rest, x, hx => by
    rw [show dupSingle (a :: b :: rest) = a :: b :: rest from rfl] at hx
    exact hx

theorem dedupAdjFrom_subset {α : Type} [DecidableEq α] (prev : α) :
    ∀ l : List α, ∀ x ∈ dedupAdjFrom prev l, x ∈ l
  | b :: rest, x, hx => by
    simp only [dedupAdjFrom] at hx
    by_cases hbp : b = prev
    · rw [if_pos hbp] at hx
      exact List.mem_cons_of_mem _ (dedupAdjFrom_subset prev rest x hx)
    · rw [if_neg hbp] at hx
      rcases List.mem_cons.1 hx with rfl | h
      · simp
      · exact List.mem_cons_of_mem _ (dedupAdjFrom_subset b rest x h)

theorem dedupAdj_subset {α : Type} [DecidableEq α] :
    ∀ (l : List α), ∀ x ∈ dedupAdj l, x ∈ l
  | [], x, hx => by simp [dedupAdj] at hx
  | a :: rest, x, hx => by
    rcases List.mem_cons.1 hx with rfl | h
    · simp
    · exact List.mem_cons_of_mem _ (dedupAdjFrom_subset a rest x h)

theorem make_single_atom_mem {α : Type} [DecidableEq α] (col : String) (bounds : List α) :
    ∀ w ∈ make_single_pk_slices col bounds, ∀ a ∈ w, a.col = col ∧ a.val ∈ bounds := by
  intro w hw a ha
  simp only [make_single_pk_slices, List.mem_map] at hw
  rcases hw with ⟨q, hq, rfl⟩
  have h1 : q.1 ∈ bounds :=
    dedupAdj_subset bounds _ (dupSingle_subset _ _ (slicePairs_fst_mem _ q hq))
  have h2 : q.2.1 ∈ bounds :=
    dedupAdj_subset bounds _ (dupSingle_subset _ _ (slicePairs_snd_mem _ q hq))
  unfold singleRange at ha
  by_cases hfl : q.2.2 = true
  · rw [if_pos hfl] at ha
    rcases List.mem_cons.1 ha with rfl | ha'
    · exact ⟨rfl, h1⟩
    · simp only [List.mem_singleton] at ha'
      subst ha'
      exact ⟨rfl, h2⟩
  · rw [if_neg hfl] at ha
    rcases List.mem_cons.1 ha with rfl | ha'
    · exact ⟨rfl, h1⟩
    · simp only [List.mem_singleton] at ha'
      subst ha'
      exact ⟨rfl, h2⟩

theorem single_render_avoids {p : List Char} (hp : SpaceFree p) (hnil : p ≠ [])
    (hand : ¬p <:+: " AND ".data)
    (heq : ¬p <:+: " = ".data) (hltT : ¬p <:+: " < ".data) (hleT : ¬p <:+: " <= ".data)
    (hgtT : ¬p <:+: " > ".data) (hgeT : ¬p <:+: " >= ".data)
    (col : String) (bounds : List Value)
    (hc : ¬p <:+: col.data)
    (hv : ∀ v ∈ bounds, ¬p <:+: (fmt_literal v).data) :
    ∀ s ∈ make_single_pk_slices_from_bounds col bounds, ¬p <:+: s.data := by
  intro s hs
  simp only [make_single_pk_slices_from_bounds, List.mem_map] at hs
  rcases hs with ⟨w, hw, rfl⟩
  refine renderWhere_avoids hp hnil hand w ?_
  intro a ha
  have hmem := make_single_atom_mem col bounds w hw a ha
  exact renderAtom_avoids hp heq hltT hleT hgtT hgeT a (hmem.1 ▸ hc) (hv _ hmem.2)

end Substrings

/-! ## Shape of the single-column output -/

section SingleShape

theorem renderWhere_singleRange (col : String) (lo hi : Value) (fl : Bool) :
    renderWhere (singleRange col (lo, hi, fl))
      = col ++ " >= " ++ fmt_literal lo ++ " AND " ++ col
        ++ (if fl then " <= " else " < ") ++ fmt_literal hi := by
  cases fl <;> simp [singleRange, renderWhere, renderAtom, String.append_assoc]

theorem make_single_eq_pairs {α : Type} [DecidableEq α] (col : String) (bounds : List α)
    (hch : bounds.Chain' (· ≠ ·)) (hlen : 2 ≤ bounds.length) :
    make_single_pk_slices col bounds = (slicePairs bounds).map (singleRange col) := by
  unfold make_single_pk_slices
  rw [dedupAdj_eq_self bounds hch]
  match bounds, hlen with
  | a :: b :: rest, _ => rfl

theorem make_single_from_bounds_length (col : String) (bounds : List Value)
    (hch : bounds.Chain' (· ≠ ·)) (hlen : 2 ≤ bounds.length) :
    (make_single_pk_slices_from_bounds col bounds).length = bounds.length - 1 := by
  unfold make_single_pk_slices_from_bounds
  rw [List.length_map, make_single_eq_pairs col bounds hch hlen, List.length_map,
    slicePairs_length]

theorem make_single_from_bounds_get (col : String) (bounds : List Value)
    (hch : bounds.Chain' (· ≠ ·)) (hlen : 2 ≤ bounds.length) (i : Nat) (lo hi : Value)
    (h1 : bounds[i]? = some lo) (h2 : bounds[i + 1]? = some hi) :
    (make_single_pk_slices_from_bounds col bounds)[i]?
      = some (col ++ " >= " ++ fmt_literal lo ++ " AND " ++ col
          ++ (if i + 2 = bounds.length then " <= " else " < ") ++ fmt_literal hi) := by
  unfold make_single_pk_slices_from_bounds
  rw [make_single_eq_pairs col bounds hch hlen, List.getElem?_map, List.getElem?_map,
    slicePairs_get bounds i lo hi h1 h2]
  by_cases hc : i + 2 = bounds.length
  · simp [hc, renderWhere_singleRange]
  · simp [hc, renderWhere_singleRange]

end SingleShape

/-! ## The specified properties -/

section Claims

/-- C1: for every column list `c1..cn` (n ≥ 1, distinct names) and every pair
of key tuples `low < high` (lexicographically) of the same arity, a key tuple
satisfies at least one predicate emitted by `build_composite_slice_wheres`
exactly when it lies in the lexicographic interval `[low, high)` when
`is_last` is false, and `[low, high]` when `is_last` is true: the union of
the emitted predicates is set-equal to the interval, with no gaps and no key
excluded. -/
theorem C1_union_exact {α : Type} [LinearOrder α] (cols : List String)
    (left right t : List α) (is_last : Bool) (hne : cols ≠ []) (hnd : cols.Nodup)
    (hl : left.length = cols.length) (hr : right.length = cols.length)
    (ht : t.length = cols.length) (hlt : lexLtB left right = true) :
    satAny cols t (build_composite_slice_wheres cols left right is_last) = true
      ↔ (lexLeB left t = true
          ∧ (if is_last then lexLeB t right = true else lexLtB t right = true)) := by
  rw [build_sat cols left right t is_last hne hnd hl hr ht hlt]
  cases is_last <;> simp [Bool.and_eq_true]

theorem C1_witness :
    satAny (["A", "B"]) [(1 : Int), 3]
        (build_composite_slice_wheres ["A", "B"] [0, 0] [1, 5] false) = true
      ↔ (lexLeB [(0 : Int), 0] [1, 3] = true
          ∧ (if false then lexLeB [(1 : Int), 3] [1, 5] = true
             else lexLtB [(1 : Int), 3] [1, 5] = true)) :=
  C1_union_exact ["A", "B"] [0, 0] [1, 5] [1, 3] false (by decide) (by decide)
    rfl rfl rfl (by decide)

/-- C2: within one partitioning run, emitted predicates are pairwise
disjoint: (a) the single-column partitioner's predicates over a strictly
increasing boundary list are pairwise disjoint; (b) the predicates emitted
for one composite interval are pairwise disjoint; (c) a predicate of the
interval `[low, mid)` and a predicate of the consecutive interval starting
at `mid` are never satisfied by the same key tuple. -/
theorem C2_disjoint {α : Type} [LinearOrder α] :
    (∀ (col : String) (bounds : List α), bounds.Chain' (· < ·) →
        (make_single_pk_slices col bounds).Pairwise (SegsDisj [col]))
    ∧ (∀ (cols : List String) (left right : List α) (il : Bool), cols.Nodup →
        left.length = cols.length → right.length = cols.length →
        (build_composite_slice_wheres cols left right il).Pairwise (SegsDisj cols))
    ∧ (∀ (cols : List String) (low mid high : List α) (il2 : Bool), cols ≠ [] →
        cols.Nodup → low.length = cols.length → mid.length = cols.length →
        high.length = cols.length → lexLtB low mid = true → lexLtB mid high = true →
        ∀ s1 ∈ build_composite_slice_wheres cols low mid false,
          ∀ s2 ∈ build_composite_slice_wheres cols mid high il2, SegsDisj cols s1 s2) :=
  ⟨fun col bounds h => make_single_pairwise col bounds h,
   fun cols left right il hnd hl hr => build_pairwise cols left right il hnd hl hr,
   fun cols low mid high il2 hne hnd h1 h2 h3 hlm hmh =>
     build_cross_disjoint cols low mid high il2 hne hnd h1 h2 h3 hlm hmh⟩

theorem C2_witness :
    (make_single_pk_slices ("A") [(1 : Int), 2, 3]).Pairwise (SegsDisj ["A"])
    ∧ (build_composite_slice_wheres ["A", "B"] [(0 : Int), 0] [1, 5] false).Pairwise
        (SegsDisj ["A", "B"])
    ∧ ∀ s1 ∈ build_composite_slice_wheres ["A", "B"] [(0 : Int), 0] [1, 5] false,
        ∀ s2 ∈ build_composite_slice_wheres ["A", "B"] [(1 : Int), 5] [2, 0] true,
          SegsDisj ["A", "B"] s1 s2 :=
  ⟨(@C2_disjoint Int _).1 ("A") [1, 2, 3]
     (List.chain'_cons.2 ⟨by decide, List.chain'_cons.2 ⟨by decide, List.chain'_singleton _⟩⟩),
   (@C2_disjoint Int _).2.1 ["A", "B"] [0, 0] [1, 5] false (by decide) rfl rfl,
   (@C2_disjoint Int _).2.2 ["A", "B"] [0, 0] [1, 5] [2, 0] true (by decide) (by decide)
     rfl rfl rfl (by decide) (by decide)⟩

/-- C3 (evaluation at the failing input): when boundary sampling leaves a
single tuple, the single-column path duplicates it and emits exactly one
closed predicate, but the composite path emits zero statements — the
generator's composite branch iterates over `len(boundaries) - 1 = 0`
consecutive pairs and never duplicates the lone tuple. -/
theorem C3_degenerate_eval :
    generate_slice_sql ("t") ["C1"] (fun _ => [[Value.int 7]])
        = (Except.ok ["SELECT * FROM t WHERE C1 >= 7 AND C1 <= 7;"], true)
    ∧ generate_slice_sql ("t") ["C1", "C2"] (fun _ => [[Value.int 7, Value.int 8]])
        = (Except.ok [], true) :=
  ⟨rfl, rfl⟩

/-- C4: for `N ≥ 1` rows and `K ≥ 1` requested slices the sampler's target
row-rank list (stride `max(1, ceil(N / K))`, ranks `{1 + i·step} ∪ {N}`,
deduplicated and sorted ascending) always contains the final rank `N` and
has at most `K + 1` elements. -/
theorem C4_target_rns (total k : Nat) (_h1 : 1 ≤ total) (_h2 : 1 ≤ k) :
    total ∈ target_rns total k ∧ (target_rns total k).length ≤ k + 1
      ∧ (target_rns total k).Sorted (· < ·) := by
  refine ⟨?_, ?_, ?_⟩
  · exact (List.mem_insertionSort _).2
      (List.mem_dedup.2 (List.mem_append.2 (Or.inr (by simp))))
  · unfold target_rns
    rw [List.length_insertionSort]
    calc ((((List.range k).map fun i => 1 + i * boundary_step total k) ++ [total]).dedup).length
        ≤ (((List.range k).map fun i => 1 + i * boundary_step total k) ++ [total]).length :=
          (List.dedup_sublist _).length_le
      _ = k + 1 := by simp
  · have hs := List.sorted_insertionSort (· ≤ ·)
      ((((List.range k).map fun i => 1 + i * boundary_step total k) ++ [total]).dedup)
    have hn : (target_rns total k).Nodup :=
      ((List.perm_insertionSort _ _).nodup_iff).2 (List.nodup_dedup _)
    exact (hs.and hn).imp fun h => lt_of_le_of_ne h.1 h.2

theorem C4_witness :
    30 ∈ target_rns 30 3 ∧ (target_rns 30 3).length ≤ 3 + 1
      ∧ (target_rns 30 3).Sorted (· < ·) :=
  C4_target_rns 30 3 (by decide) (by decide)

/-- C5: over an adjacent-distinct boundary list of length m ≥ 2, the
single-column partitioner emits exactly m − 1 predicates; pair i yields
`col >= lo AND col < hi`, except the final pair which yields
`col >= lo AND col <= hi`; in particular boundaries `[1, 11, 21, 30]` for
column `ID` yield exactly the three expected predicates. -/
theorem C5_single_slices :
    (∀ (col : String) (bounds : List Value), bounds.Chain' (· ≠ ·) → 2 ≤ bounds.length →
      (make_single_pk_slices_from_bounds col bounds).length = bounds.length - 1
      ∧ ∀ (i : Nat) (lo hi : Value), bounds[i]? = some lo → bounds[i + 1]? = some hi →
          (make_single_pk_slices_from_bounds col bounds)[i]?
            = some (col ++ " >= " ++ fmt_literal lo ++ " AND " ++ col
                ++ (if i + 2 = bounds.length then " <= " else " < ") ++ fmt_literal hi))
    ∧ make_single_pk_slices_from_bounds ("ID")
        [Value.int 1, Value.int 11, Value.int 21, Value.int 30]
      = ["ID >= 1 AND ID < 11", "ID >= 11 AND ID < 21", "ID >= 21 AND ID <= 30"] :=
  ⟨fun col bounds hch hlen =>
    ⟨make_single_from_bounds_length col bounds hch hlen,
     fun i lo hi h1 h2 => make_single_from_bounds_get col bounds hch hlen i lo hi h1 h2⟩,
   by decide⟩

theorem C5_witness :
    (make_single_pk_slices_from_bounds ("K") [Value.int 2, Value.int 5, Value.int 9]).length = 2
    ∧ (make_single_pk_slices_from_bounds ("K") [Value.int 2, Value.int 5, Value.int 9])[1]?
        = some ("K >= 5 AND K <= 9") :=
  ⟨(C5_single_slices.1 ("K") [Value.int 2, Value.int 5, Value.int 9]
      (List.chain'_cons.2 ⟨by decide, List.chain'_cons.2 ⟨by decide,
        List.chain'_singleton _⟩⟩) (by decide)).1,
   (C5_single_slices.1 ("K") [Value.int 2, Value.int 5, Value.int 9]
      (List.chain'_cons.2 ⟨by decide, List.chain'_cons.2 ⟨by decide,
        List.chain'_singleton _⟩⟩) (by decide)).2 1 (Value.int 5) (Value.int 9) rfl rfl⟩

/-- C6: for an n-column composite key, one interval expands into at most
`2·(n − 1) + 1` predicates. -/
theorem C6_count_bound {α : Type} [DecidableEq α] (cols : List String)
    (left right : List α) (is_last : Bool) (hne : cols ≠ [])
    (hl : left.length = cols.length) (hr : right.length = cols.length) :
    (build_composite_slice_wheres cols left right is_last).length
      ≤ 2 * (cols.length - 1) + 1 :=
  build_length_le cols left right is_last hne hl hr

theorem C6_witness :
    (build_composite_slice_wheres ["A", "B", "C"] [(0 : Int), 0, 0] [1, 2, 3] false).length
      ≤ 2 * (3 - 1) + 1 :=
  C6_count_bound ["A", "B", "C"] [0, 0, 0] [1, 2, 3] false (by decide) rfl rfl

/-- C7 counterexample: a column name containing `OR` (here `ORD`) makes the
emitted predicate contain the substring `OR`, refuting the claim over all
inputs. -/
theorem C7_counterexample :
    make_single_pk_slices_from_bounds ("ORD") [Value.int 1, Value.int 2]
        = ["ORD >= 1 AND ORD <= 2"]
    ∧ "OR".data <:+: "ORD >= 1 AND ORD <= 2".data :=
  ⟨by decide, by decide⟩

/-- C7 (amended): whenever no key column name and no formatted key literal
contains `OR` or `UNION` as a substring, no emitted predicate contains them:
the generator itself only contributes the comparison tokens, `AND`
separators and spaces. -/
theorem C7_amended :
    (∀ (cols : List String) (left right : List Value) (il : Bool),
      (∀ c ∈ cols, cleanStr c) → (∀ v ∈ left ++ right, cleanStr (fmt_literal v)) →
      ∀ w ∈ build_composite_slice_wheres cols left right il, cleanStr (renderWhere w))
    ∧ (∀ (col : String) (bounds : List Value), cleanStr col →
      (∀ v ∈ bounds, cleanStr (fmt_literal v)) →
      ∀ s ∈ make_single_pk_slices_from_bounds col bounds, cleanStr s) := by
  constructor
  · intro cols left right il hc hv w hw
    constructor
    · exact build_render_avoids (by decide) (by decide) (by decide) (by decide)
        (by decide) (by decide) (by decide) (by decide) cols left right il
        (fun c hcc => (hc c hcc).1) (fun v hvv => (hv v hvv).1) w hw
    · exact build_render_avoids (by decide) (by decide) (by decide) (by decide)
        (by decide) (by decide) (by decide) (by decide) cols left right il
        (fun c hcc => (hc c hcc).2) (fun v hvv => (hv v hvv).2) w hw
  · intro col bounds hc hv s hs
    constructor
    · exact single_render_avoids (by decide) (by decide) (by decide) (by decide)
        (by decide) (by decide) (by decide) (by decide) col bounds
        hc.1 (fun v hvv => (hv v hvv).1) s hs
    · exact single_render_avoids (by decide) (by decide) (by decide) (by decide)
        (by decide) (by decide) (by decide) (by decide) col bounds
        hc.2 (fun v hvv => (hv v hvv).2) s hs

theorem C7_witness :
    ∀ s ∈ make_single_pk_slices_from_bounds ("ID") [Value.int 1, Value.int 2], cleanStr s :=
  C7_amended.2 ("ID") [Value.int 1, Value.int 2] (by constructor <;> decide) (by decide)

/-- C8: with an empty resolved primary-key column list the generator fails
with `Primary key not found`, regardless of what boundary sampling would
return, and the sampling query is never invoked (flag `false`); no
statements are produced. -/
theorem C8_no_pk_error :
    ∀ (qualified : String) (fetch : Unit → List (List Value)),
      generate_slice_sql qualified [] fetch
        = (Except.error ("Primary key not found"), false) :=
  fun _ _ => rfl

/-- C9: a zero row count makes the boundary sampler return an empty list
before issuing the ranked-sample query, and the generator then returns an
empty statement sequence as a non-error (`Except.ok`) outcome. -/
theorem C9_empty_table :
    ∀ (k : Nat) (rows : List Nat → List (List Value)) (qualified c : String)
      (cs : List String),
      fetch_pk_boundaries 0 k rows = []
      ∧ generate_slice_sql qualified (c :: cs) (fun _ => fetch_pk_boundaries 0 k rows)
          = (Except.ok [], true) :=
  fun _ _ _ _ _ => ⟨rfl, by simp [generate_slice_sql, fetch_pk_boundaries]⟩

/-- C10: both bound-expansion helpers return exactly as many segments as
there are columns, and an interval whose bound tuples share a common prefix
of length `j` and first differ at index `j` expands into exactly
`2·(n − j) − 1` predicates. -/
theorem C10_exact_counts {α : Type} [DecidableEq α] :
    (∀ (cols : List String) (bounds : List α), cols ≠ [] → bounds.length = cols.length →
        (_ge_segments cols bounds).length = cols.length)
    ∧ (∀ (cols : List String) (bounds : List α) (inc : Bool), cols ≠ [] →
        bounds.length = cols.length → (_le_segments cols bounds inc).length = cols.length)
    ∧ (∀ (cols : List String) (left right : List α) (is_last : Bool) (j : Nat), cols ≠ [] →
        left.length = cols.length → right.length = cols.length → j < cols.length →
        (∀ i, i < j → left[i]? = right[i]?) → left[j]? ≠ right[j]? →
        (build_composite_slice_wheres cols left right is_last).length
          = 2 * (cols.length - j) - 1) :=
  ⟨ge_segments_length, le_segments_length, build_length_firstdiff⟩

theorem C10_witness :
    (_ge_segments ["A", "B"] [(0 : Int), 1]).length = 2
    ∧ (_le_segments ["A", "B"] [(0 : Int), 1] true).length = 2
    ∧ (build_composite_slice_wheres ["A", "B", "C"] [(0 : Int), 0, 0] [0, 1, 5] false).length
        = 2 * (3 - 1) - 1 :=
  ⟨(@C10_exact_counts Int _).1 ["A", "B"] [0, 1] (by decide) rfl,
   (@C10_exact_counts Int _).2.1 ["A", "B"] [0, 1] true (by decide) rfl,
   (@C10_exact_counts Int _).2.2 ["A", "B", "C"] [0, 0, 0] [0, 1, 5] false 1 (by decide)
     rfl rfl (by decide)
     (fun i hi => by
       have h0 : i = 0 := by omega
       subst h0
       rfl)
     (by decide)⟩

end Claims

end SliceSql
